import Mathlib

set_option maxHeartbeats 1000000

/-!
Verification of the ingestion / state-continuity core of the repository
(`loomprotocol/silk`).  Each Rust module relevant to the checked properties is
shallowly embedded: pure functions become Lean functions, the stateful trackers
become explicit state-passing functions, machine integers become `Nat` with the
relevant moduli made explicit, and panicking paths (`expect`, `unwrap`,
`assert!`) return `none`.
-/

/-! ## Blockstore metadata (`src/ledger/src/blockstore_meta.rs`) -/

/-- Rust `std::u64::MAX`; the "unknown" sentinel for `SlotMeta.last_index`. -/
def u64MAX : Nat := 2 ^ 64 - 1

/-- `SlotMeta` from `src/ledger/src/blockstore_meta.rs`: per-slot shred
bookkeeping. -/
structure SlotMeta where
  slot : Nat
  consumed : Nat
  received : Nat
  first_shred_timestamp : Nat
  last_index : Nat
  parent_slot : Nat
  next_slots : List Nat
  is_connected : Bool
  completed_data_indexes : List Nat
deriving DecidableEq

/-- `SlotMeta::is_full`: full iff `last_index` is known (not the `u64::MAX`
sentinel) and `consumed == last_index + 1`.  The `datapoint_error!` branch in
the source only emits a log line and is a no-op on the state. -/
def SlotMeta.is_full (m : SlotMeta) : Bool :=
  if m.last_index = u64MAX then false
  else m.consumed == m.last_index + 1

/-- `bv::BitVec::get`: the source always guards `index < len` before calling
`get`, and a bit beyond the end of the vector reads as absent, so the partial
read is modelled with default `false`. -/
def bvGet (l : List Bool) (i : Nat) : Bool := l.getD i false

/-- `bv::BitVec::resize(n, false)` for the grow-only use in `set_present`
(there `n = max(index + 1, len) ≥ len`, so no truncation can occur). -/
def bvResize (l : List Bool) (n : Nat) : List Bool :=
  l ++ List.replicate (n - l.length) false

/-- `ShredIndex2`: growable presence bit-vector plus a cached count of present
shreds. -/
structure ShredIndex2 where
  index : List Bool
  num_present : Nat
deriving DecidableEq

/-- `ShredIndex2::default()`. -/
def ShredIndex2.empty : ShredIndex2 := ⟨[], 0⟩

/-- `ShredIndex2::num_shreds`. -/
def ShredIndex2.num_shreds (s : ShredIndex2) : Nat := s.num_present

/-- `ShredIndex2::is_present`: explicit range check, then `BitVec::get`. -/
def ShredIndex2.is_present (s : ShredIndex2) (i : Nat) : Bool :=
  decide (i < s.index.length) && bvGet s.index i

/-- `ShredIndex2::present_in_bounds`: count the set bits over the overlap of
`[start, stop)` with the vector's current range. -/
def ShredIndex2.present_in_bounds (s : ShredIndex2) (start stop : Nat) : Nat :=
  let len := s.index.length
  (List.range' (min start len) (min stop len - min start len)).countP
    (fun i => bvGet s.index i)

/-- `ShredIndex2::set_present`: grow (never shrink) the vector to cover
`index`, then flip the bit and adjust `num_present` only if the stored value
actually changes. -/
def ShredIndex2.set_present (s : ShredIndex2) (i : Nat) (presence : Bool) :
    ShredIndex2 :=
  let l := bvResize s.index (max (i + 1) s.index.length)
  let previous := bvGet l i
  if previous != presence then
    { index := l.set i presence
      num_present := if presence then s.num_present + 1 else s.num_present - 1 }
  else
    { index := l, num_present := s.num_present }

/-- `ShredIndex2::set_many_present`. -/
def ShredIndex2.set_many_present (s : ShredIndex2) (ps : List (Nat × Bool)) :
    ShredIndex2 :=
  ps.foldl (fun acc p => acc.set_present p.1 p.2) s

/-- `ShredIndex`: the legacy `BTreeSet<u64>` representation, modelled as the
set's sorted, duplicate-free list of elements in increasing order. -/
structure ShredIndex where
  index : List Nat
deriving DecidableEq

/-- `ShredIndex::to_shred_index2`: iterate the set in reverse (descending)
order — so the bit-vector is resized once — marking each member present. -/
def ShredIndex.to_shred_index2 (s : ShredIndex) : ShredIndex2 :=
  ShredIndex2.set_many_present ShredIndex2.empty
    (s.index.reverse.map (fun i => (i, true)))

/-- `ShredIndex2::to_shred_index`: scan `0..len` in increasing order and insert
every present index into the sorted set. -/
def ShredIndex2.to_shred_index (s : ShredIndex2) : ShredIndex :=
  ⟨(List.range s.index.length).filter (fun i => s.is_present i)⟩

/-- `Index2`: per-slot pair of presence indexes for data and coding shreds. -/
structure Index2 where
  slot : Nat
  data : ShredIndex2
  coding : ShredIndex2
deriving DecidableEq

/-- Modelled from the spec: `ErasureConfig` lives in `src/ledger/src/erasure.rs`,
which is not among the provided sources; per the spec each erasure set carries
a configured `(num_data, num_coding)` pair. -/
structure ErasureConfig where
  num_data : Nat
  num_coding : Nat
deriving DecidableEq

/-- `ErasureMeta` (the deprecated `__unused` serialization field is omitted;
nothing reads it). -/
structure ErasureMeta where
  set_index : Nat
  size : Nat
  config : ErasureConfig
deriving DecidableEq

/-- `ErasureMetaStatus`. -/
inductive ErasureMetaStatus where
  | CanRecover
  | DataFull
  | StillNeed (n : Nat)
deriving DecidableEq

/-- `ErasureMeta::status`: live recomputation from the two presence counts;
`saturating_sub` is `Nat` subtraction. -/
def ErasureMeta.status (e : ErasureMeta) (index : Index2) : ErasureMetaStatus :=
  let num_coding := index.coding.present_in_bounds e.set_index
    (e.set_index + e.config.num_coding)
  let num_data := index.data.present_in_bounds e.set_index
    (e.set_index + e.config.num_data)
  let data_missing := e.config.num_data - num_data
  let num_needed := e.config.num_data - (num_data + num_coding)
  if data_missing = 0 then ErasureMetaStatus.DataFull
  else if num_needed = 0 then ErasureMetaStatus.CanRecover
  else ErasureMetaStatus.StillNeed num_needed

/-! ## Association-list model of `HashMap`

All maps in the embedded modules are `HashMap`s keyed by integers; they are
modelled as association lists.  `insertKey` replaces any existing binding,
matching `HashMap::insert`; `removeKey` matches `HashMap::remove`;
`updateKey` matches in-place mutation through `get_mut`. -/

/-- First binding of `k`, as `HashMap::get`. -/
def lookupKey {α : Type} (k : Nat) : List (Nat × α) → Option α
  | [] => none
  | p :: rest => if p.1 = k then some p.2 else lookupKey k rest

/-- Drop every binding of `k`, as `HashMap::remove`. -/
def removeKey {α : Type} (k : Nat) (l : List (Nat × α)) : List (Nat × α) :=
  l.filter (fun p => p.1 != k)

/-- Rewrite the value bound to `k`, as mutation through `HashMap::get_mut`. -/
def updateKey {α : Type} (k : Nat) (f : α → α) (l : List (Nat × α)) :
    List (Nat × α) :=
  l.map (fun p => if p.1 = k then (p.1, f p.2) else p)

/-- Bind `k` to `v`, replacing any existing binding, as `HashMap::insert`. -/
def insertKey {α : Type} (k : Nat) (v : α) (l : List (Nat × α)) :
    List (Nat × α) :=
  (k, v) :: removeKey k l

/-! ## Outstanding-request tracker (`src/core/src/outstanding_requests.rs`) -/

/-- `DEFAULT_REQUEST_EXPIRATION_MS`. -/
def DEFAULT_REQUEST_EXPIRATION_MS : Nat := 10000

/-- Rust `std::u32::MAX`, the modulus of the nonce wrap-around in
`add_request`. -/
def U32MAX : Nat := 2 ^ 32 - 1

/-- The `RequestResponse` trait; `src/core/src/request_response.rs` is not
among the provided sources, so this is modelled from the spec: a request kind
exposes an expected-response count and "does this response verify against
me". -/
structure RequestResponse (T S : Type) where
  num_expected_responses : T → Nat
  verify_response : T → S → Bool

/-- `RequestStatus`. -/
structure RequestStatus (T : Type) where
  expire_timestamp : Nat
  num_expected_responses : Nat
  request : T
deriving DecidableEq

/-- `NodeOutstandingRequests`: the per-peer nonce space. -/
structure NodeOutstandingRequests (T : Type) where
  requests : List (Nat × RequestStatus T)
  nonce : Nat
deriving DecidableEq

/-- `NodeOutstandingRequests::default()`. -/
def NodeOutstandingRequests.empty (T : Type) : NodeOutstandingRequests T :=
  ⟨[], 0⟩

/-- `NodeOutstandingRequests::add_request`; the external clock `timestamp()`
is passed in as `now`.  Returns the allocated nonce and the updated state. -/
def NodeOutstandingRequests.add_request {T S : Type} (rr : RequestResponse T S)
    (n : NodeOutstandingRequests T) (request : T) (now : Nat) :
    Nat × NodeOutstandingRequests T :=
  let num_expected_responses := rr.num_expected_responses request
  let nonce := n.nonce
  let requests := insertKey nonce
    ⟨now + DEFAULT_REQUEST_EXPIRATION_MS, num_expected_responses, request⟩
    n.requests
  (nonce, { requests := requests, nonce := (n.nonce + 1) % U32MAX })

/-- `NodeOutstandingRequests::register_response`.  Returns whether the
response was valid together with the updated state; the `expect` on the
removal cannot fail because the entry was just found. -/
def NodeOutstandingRequests.register_response {T S : Type}
    (rr : RequestResponse T S) (n : NodeOutstandingRequests T) (nonce : Nat)
    (response : S) (now : Nat) : Bool × NodeOutstandingRequests T :=
  match lookupKey nonce n.requests with
  | none => (false, n)
  | some status =>
    if decide (0 < status.num_expected_responses)
        && decide (now < status.expire_timestamp)
        && rr.verify_response status.request response then
      let status' : RequestStatus T :=
        { status with
          num_expected_responses := status.num_expected_responses - 1 }
      let requests' := updateKey nonce (fun _ => status') n.requests
      if status'.num_expected_responses = 0 then
        (true, { n with requests := removeKey nonce requests' })
      else
        (true, { n with requests := requests' })
    else
      (false, { n with requests := removeKey nonce n.requests })

/-- `std::net::SocketAddr`, reduced to the fields the tracker distinguishes:
the per-peer keying uses only `socket_addr.ip()`. -/
structure SocketAddr where
  ip : Nat
  port : Nat
deriving DecidableEq

/-- `OutstandingRequests`: one independent `NodeOutstandingRequests` per peer
IP address. -/
structure OutstandingRequests (T : Type) where
  requests : List (Nat × NodeOutstandingRequests T)
deriving DecidableEq

/-- `OutstandingRequests::add_request`: `entry(ip).or_default()` then delegate
to the node-level tracker. -/
def OutstandingRequests.add_request {T S : Type} (rr : RequestResponse T S)
    (o : OutstandingRequests T) (socket_addr : SocketAddr) (request : T)
    (now : Nat) : Nat × OutstandingRequests T :=
  let node := (lookupKey socket_addr.ip o.requests).getD ⟨[], 0⟩
  let r := NodeOutstandingRequests.add_request rr node request now
  (r.1, ⟨insertKey socket_addr.ip r.2 o.requests⟩)

/-- `OutstandingRequests::register_response`: a peer with no entry yields
`false` and leaves the state unchanged. -/
def OutstandingRequests.register_response {T S : Type}
    (rr : RequestResponse T S) (o : OutstandingRequests T)
    (socket_addr : SocketAddr) (nonce : Nat) (response : S) (now : Nat) :
    Bool × OutstandingRequests T :=
  match lookupKey socket_addr.ip o.requests with
  | none => (false, o)
  | some node =>
    let r := NodeOutstandingRequests.register_response rr node nonce response
      now
    (r.1, ⟨insertKey socket_addr.ip r.2 o.requests⟩)

/-! ## Shred ingestion pipeline (`src/core/src/window_service.rs`) -/

/-- Modelled from the spec: `Shred` (`src/ledger/src/shred.rs` is not among
the provided sources) is identified by (slot, index, type ∈ {data, coding})
and carries the declared parent slot (data shreds only), the cluster version
tag, and the last-in-slot / last-coding-in-set flags. -/
structure Shred where
  slot : Nat
  index : Nat
  parent : Nat
  version : Nat
  is_data : Bool
  last_in_slot : Bool
  is_last_coding_in_set : Bool
deriving DecidableEq

/-- Modelled from the spec: `MAX_DATA_SHREDS_PER_SLOT` is declared in
`src/ledger/src/blockstore.rs`, which is not among the provided sources; the
spec calls it "the per-slot maximum".  The claims do not depend on the
concrete value; 2^15 is used. -/
def MAX_DATA_SHREDS_PER_SLOT : Nat := 32768

/-- `verify_shred_slot`: data shreds go through the external
`blockstore::verify_shred_slots` slot/parent/root monotonicity check (not
among the provided sources, abstracted as the parameter `vss`); coding shreds
only require `slot ≥ root`. -/
def verify_shred_slot (vss : Nat → Nat → Nat → Bool) (shred : Shred)
    (root : Nat) : Bool :=
  if shred.is_data then vss shred.slot shred.parent root
  else decide (shred.slot ≥ root)

/-- `should_retransmit_and_persist`.  The leader-schedule lookup (external per
the spec, including its optional bank context) is abstracted as
`slot_leader_at : slot → Option leader`; the counter bumps in the source are
logging no-ops. -/
def should_retransmit_and_persist (vss : Nat → Nat → Nat → Bool)
    (slot_leader_at : Nat → Option Nat) (shred : Shred) (my_pubkey : Nat)
    (root : Nat) (shred_version : Nat) : Bool :=
  match slot_leader_at shred.slot with
  | some leader_id =>
    if leader_id = my_pubkey then false
    else if !verify_shred_slot vss shred root then false
    else if shred.version != shred_version then false
    else if decide (shred.index ≥ MAX_DATA_SHREDS_PER_SLOT) then false
    else true
  | none => false

/-- One verified packet as seen by `recv_window`: its `discard` mark and the
result of `Shred::new_from_serialized_shred` on its payload (`none` when
deserialization fails). -/
structure Packet where
  discard : Bool
  data : Option Shred
deriving DecidableEq

/-- The filter / dead-slot core of `recv_window` (the per-packet `filter_map`
over the drained batch): returns the shreds forwarded to insertion, in order,
together with the list of slots passed to `Blockstore::set_dead_slot`.  The
retransmit send and the `packet.meta` mutations do not affect either
output. -/
def recv_window_core (shred_filter : Shred → Nat → Bool) (last_root : Nat)
    (packets : List Packet) : List Shred × List Nat :=
  packets.foldl
    (fun acc packet =>
      if packet.discard then acc
      else
        match packet.data with
        | some shred =>
          if shred_filter shred last_root then
            if decide (shred.index ≥ MAX_DATA_SHREDS_PER_SLOT - 1) then
              (acc.1 ++ [shred], acc.2 ++ [shred.slot])
            else
              (acc.1 ++ [shred], acc.2)
          else acc
        | none => acc)
    ([], [])

/-! ## Fork manager (`src/core/src/bank_forks.rs`) -/

/-- Modelled from the spec: `solana_runtime::bank::Bank` is external (the
"state-execution handle": slot, ancestor set, frozen flag).  Its `ancestors`
contains the bank's own slot, which the `BankForks` code strips with
`set.remove(&bank.slot())`. -/
structure Bank where
  slot : Nat
  ancestors : List Nat
  is_frozen : Bool
deriving DecidableEq

/-- Modelled from the spec: `Bank::squash` is the node's own finalization and
touches only bank-internal execution state; it is the identity on the fields
tracked here (slot, ancestors, frozen flag). -/
def Bank.squash (b : Bank) : Bank := b

/-- The strict ancestor set a bank contributes to `ancestors()` and
`descendants()`: `bank.ancestors.keys()` minus the bank's own slot. -/
def Bank.strictAncestors (b : Bank) : List Nat :=
  b.ancestors.filter (fun s => s != b.slot)

/-- `BankForks` (the `working_bank`, `slots` and `use_snapshot` fields only
feed the snapshot file I/O, which is outside the modelled state). -/
structure BankForks where
  banks : List Bank
  root : Nat
deriving DecidableEq

/-- `BankForks::ancestors`: map of bank slot to its strict ancestor set. -/
def BankForks.ancestors (f : BankForks) : List (Nat × List Nat) :=
  f.banks.map (fun b => (b.slot, b.strictAncestors))

/-- The entry `descendants()[p]` of `BankForks::descendants`: the slots of the
banks listing `p` among their strict ancestors.  (`descendants()` also holds
an empty entry for every live slot; `prune_non_root` reads only the entry of
the root, which is live when it is called.) -/
def BankForks.descendantsAt (f : BankForks) (p : Nat) : List Nat :=
  (f.banks.filter (fun b => b.strictAncestors.contains p)).map Bank.slot

/-- The bank-map effect of `BankForks::prune_non_root`: retain exactly the
banks whose slot is in `descendants()[root]`.  (The snapshot bookkeeping in
its tail is file I/O and does not touch the bank map.) -/
def BankForks.prune_non_root (f : BankForks) (root : Nat) : BankForks :=
  let ds := f.descendantsAt root
  { f with banks := f.banks.filter (fun b => ds.contains b.slot) }

/-- `BankForks::set_root`: the root must exist (the `expect` panic is `none`),
its bank is squashed, the root field is updated, then the map is pruned. -/
def BankForks.set_root (f : BankForks) (root : Nat) : Option BankForks :=
  if f.banks.any (fun b => b.slot == root) then
    some (BankForks.prune_non_root { f with root := root } root)
  else none

/-! ## Transmit-shred assembly cache
(`src/core/src/broadcast_stage/slot_transmit_shreds_cache.rs`) -/

/-- `SlotCachedTransmitShreds`: the epoch stake map plus the ordered data and
coding batch lists for one cached slot. -/
structure SlotCachedTransmitShreds where
  stakes : List (Nat × Nat)
  data_shred_batches : List (List Shred)
  coding_shred_batches : List (List Shred)
deriving DecidableEq

/-- `SlotTransmitShredsCache`.  `insertion_order` is the
`VecDeque<Slot>` created by `VecDeque::with_capacity(capacity)`; the deque's
`capacity()` is modelled as exactly the requested capacity. -/
structure SlotTransmitShredsCache where
  cache : List (Nat × SlotCachedTransmitShreds)
  insertion_order : List Nat
  capacity : Nat
deriving DecidableEq

/-- `SlotTransmitShredsCache::new(capacity)`. -/
def SlotTransmitShredsCache.new (capacity : Nat) : SlotTransmitShredsCache :=
  ⟨[], [], capacity⟩

/-- The tail of `push`: append the homogeneous batch to the slot's entry.
`first` is `transmit_shreds.1[0]`; a failing `assert!` (mixed batch) or a
missing entry (`unwrap` on `get_mut`) is `none`. -/
def SlotTransmitShredsCache.appendBatch (c : SlotTransmitShredsCache)
    (slot : Nat) (batch : List Shred) (first : Shred) :
    Option SlotTransmitShredsCache :=
  match lookupKey slot c.cache with
  | none => none
  | some _ =>
    let addData := fun (e : SlotCachedTransmitShreds) =>
      { e with data_shred_batches := e.data_shred_batches ++ [batch] }
    let addCoding := fun (e : SlotCachedTransmitShreds) =>
      { e with coding_shred_batches := e.coding_shred_batches ++ [batch] }
    if first.is_data then
      if batch.all (fun s => s.is_data) then
        some { c with cache := updateKey slot addData c.cache }
      else none
    else
      if batch.all (fun s => !s.is_data) then
        some { c with cache := updateKey slot addCoding c.cache }
      else none

/-- `SlotTransmitShredsCache::push`.  An empty batch and a non-index-0 first
shred for an uncached slot return the state unchanged; the panicking paths
(`pop_front().unwrap()` on an empty deque, `remove(..).unwrap()` on a missing
key, `expect` on missing stakes, a failing homogeneity `assert!`) are
`none`. -/
def SlotTransmitShredsCache.push (c : SlotTransmitShredsCache) (slot : Nat)
    (stakes : Option (List (Nat × Nat))) (batch : List Shred) :
    Option SlotTransmitShredsCache :=
  match batch with
  | [] => some c
  | first :: _ =>
    if (lookupKey slot c.cache).isSome then
      c.appendBatch slot batch first
    else if first.index != 0 then
      some c
    else
      let step1 : Option SlotTransmitShredsCache :=
        if c.insertion_order.length = c.capacity then
          match c.insertion_order with
          | [] => none
          | old_slot :: rest =>
            if (lookupKey old_slot c.cache).isSome then
              let cache' := removeKey old_slot c.cache
              some { c with cache := cache', insertion_order := rest }
            else none
        else some c
      match step1 with
      | none => none
      | some c1 =>
        match stakes with
        | none => none
        | some stk =>
          let c2 : SlotTransmitShredsCache :=
            { c1 with
              insertion_order := c1.insertion_order ++ [slot],
              cache := insertKey slot ⟨stk, [], []⟩ c1.cache }
          c2.appendBatch slot batch first

/-- Push a sequence of `(slot, stakes, batch)` triples, stopping at the first
panic. -/
def SlotTransmitShredsCache.pushAll (c : SlotTransmitShredsCache)
    (items : List (Nat × List (Nat × Nat) × List Shred)) :
    Option SlotTransmitShredsCache :=
  items.foldlM (fun acc it => acc.push it.1 (some it.2.1) it.2.2) c

/-- The evolution of the cache's FIFO `insertion_order` under a sequence of
fresh-slot pushes: append, evicting the front when the deque is at
capacity. -/
def fifoEvolve (cap : Nat) (order : List Nat) (slots : List Nat) : List Nat :=
  slots.foldl
    (fun acc s => (if acc.length = cap then acc.drop 1 else acc) ++ [s]) order

/-- Structural invariant of `SlotTransmitShredsCache`: the insertion-order
deque holds each resident slot once, the cache keys are exactly the deque's
members, and the deque never exceeds the configured capacity. -/
def CacheInv (c : SlotTransmitShredsCache) : Prop :=
  c.insertion_order.Nodup ∧
  (c.cache.map Prod.fst).Perm c.insertion_order ∧
  c.insertion_order.length ≤ c.capacity

/-! # Theorems -/

/-! ## Bit-vector lemmas -/

theorem bvGet_out (l : List Bool) (i : Nat) (h : l.length ≤ i) :
    bvGet l i = false := by
  induction l generalizing i with
  | nil => rfl
  | cons a t ih =>
    cases i with
    | zero => simp at h
    | succ j =>
      have : t.length ≤ j := by simpa using h
      simpa [bvGet, List.getD] using ih j this

theorem bvGet_append_left (l l' : List Bool) (i : Nat) (h : i < l.length) :
    bvGet (l ++ l') i = bvGet l i := by
  induction l generalizing i with
  | nil => simp at h
  | cons a t ih =>
    cases i with
    | zero => rfl
    | succ j =>
      have : j < t.length := by simpa using h
      simpa [bvGet, List.getD] using ih j this

theorem bvGet_replicate_false (n i : Nat) :
    bvGet (List.replicate n false) i = false := by
  induction n generalizing i with
  | zero => rfl
  | succ m ih =>
    cases i with
    | zero => rfl
    | succ j => simpa [List.replicate_succ, bvGet, List.getD] using ih j

theorem bvGet_append_replicate_false (l : List Bool) (n i : Nat) :
    bvGet (l ++ List.replicate n false) i = bvGet l i := by
  induction l generalizing i with
  | nil => simpa using bvGet_replicate_false n i
  | cons a t ih =>
    cases i with
    | zero => rfl
    | succ j => simpa [bvGet, List.getD, List.cons_append] using ih j

theorem bvGet_bvResize (l : List Bool) (n i : Nat) :
    bvGet (bvResize l n) i = bvGet l i :=
  bvGet_append_replicate_false l (n - l.length) i

theorem length_bvResize (l : List Bool) (n : Nat) :
    (bvResize l n).length = max n l.length := by
  unfold bvResize
  simp [List.length_append, List.length_replicate]
  omega

theorem bvGet_set (l : List Bool) (i j : Nat) (v : Bool) (h : i < l.length) :
    bvGet (l.set i v) j = if j = i then v else bvGet l j := by
  induction l generalizing i j with
  | nil => simp at h
  | cons a t ih =>
    cases i with
    | zero =>
      cases j with
      | zero => rfl
      | succ m => simp [List.set, bvGet, List.getD]
    | succ k =>
      cases j with
      | zero => simp [List.set, bvGet, List.getD]
      | succ m =>
        have hk : k < t.length := by simpa using h
        have := ih k m hk
        by_cases hm : m = k
        · subst hm
          simpa [List.set, bvGet, List.getD] using this
        · have hm' : ¬ (m + 1 = k + 1) := by omega
          simpa [List.set, bvGet, List.getD, hm, hm'] using this

theorem count_true_replicate_false (n : Nat) :
    (List.replicate n false).count true = 0 := by
  induction n with
  | zero => rfl
  | succ m ih => simpa [List.replicate_succ, List.count_cons] using ih

theorem count_true_append_replicate_false (l : List Bool) (n : Nat) :
    (l ++ List.replicate n false).count true = l.count true := by
  simp [List.count_append, count_true_replicate_false]

theorem count_true_set (l : List Bool) (i : Nat) (v : Bool) (h : i < l.length) :
    (l.set i v).count true + (if bvGet l i then 1 else 0) =
      l.count true + (if v then 1 else 0) := by
  induction l generalizing i with
  | nil => simp at h
  | cons a t ih =>
    cases i with
    | zero =>
      have hb : bvGet (a :: t) 0 = a := rfl
      simp [List.set, List.count_cons, hb]
      cases a <;> cases v <;> simp <;> omega
    | succ k =>
      have hk : k < t.length := by simpa using h
      have hb : bvGet (a :: t) (k + 1) = bvGet t k := rfl
      have := ih k hk
      simp only [List.set, List.count_cons, hb]
      cases a <;> simp <;> omega

theorem is_present_eq_bvGet (s : ShredIndex2) (i : Nat) :
    s.is_present i = bvGet s.index i := by
  unfold ShredIndex2.is_present
  by_cases h : i < s.index.length
  · simp [h]
  · simp [h, bvGet_out s.index i (Nat.le_of_not_lt h)]

theorem length_set_present (s : ShredIndex2) (i : Nat) (b : Bool) :
    (s.set_present i b).index.length = max (i + 1) s.index.length := by
  unfold ShredIndex2.set_present
  by_cases h : bvGet (bvResize s.index (max (i + 1) s.index.length)) i != b
  · simp [h, List.length_set, length_bvResize]
  · simp [h, length_bvResize]

theorem is_present_set_present (s : ShredIndex2) (i j : Nat) (b : Bool) :
    (s.set_present i b).is_present j = if j = i then b else s.is_present j := by
  have hi : i < (bvResize s.index (max (i + 1) s.index.length)).length := by
    rw [length_bvResize]; omega
  have hres : ∀ k, bvGet (bvResize s.index (max (i + 1) s.index.length)) k =
      bvGet s.index k := fun k => bvGet_bvResize _ _ k
  unfold ShredIndex2.set_present
  by_cases h : bvGet (bvResize s.index (max (i + 1) s.index.length)) i != b
  · simp only [h, if_true]
    rw [is_present_eq_bvGet, is_present_eq_bvGet]
    show bvGet ((bvResize s.index (max (i + 1) s.index.length)).set i b) j = _
    rw [bvGet_set _ _ _ _ hi]
    by_cases hj : j = i
    · simp [hj]
    · simp [hj, hres]
  · simp only [h, if_false]
    rw [is_present_eq_bvGet, is_present_eq_bvGet]
    show bvGet (bvResize s.index (max (i + 1) s.index.length)) j = _
    rw [hres]
    by_cases hj : j = i
    · subst hj
      have hb : bvGet (bvResize s.index (max (j + 1) s.index.length)) j = b := by
        simpa using h
      rw [← hres j, hb, if_pos rfl]
    · simp [hj]

theorem bvGet_true_count_pos (l : List Bool) (i : Nat) (h : bvGet l i = true) :
    0 < l.count true := by
  induction l generalizing i with
  | nil => simp [bvGet, List.getD] at h
  | cons a t ih =>
    cases i with
    | zero =>
      have : a = true := h
      simp [List.count_cons, this]
    | succ j =>
      have hb : bvGet t j = true := h
      have hpos := ih j hb
      rw [List.count_cons]
      exact Nat.lt_of_lt_of_le hpos (Nat.le_add_right _ _)

theorem num_present_set_present (s : ShredIndex2) (i : Nat) (b : Bool)
    (h : s.num_present = s.index.count true) :
    (s.set_present i b).num_present = (s.set_present i b).index.count true := by
  have hi : i < (bvResize s.index (max (i + 1) s.index.length)).length := by
    rw [length_bvResize]; omega
  have hcnt : (bvResize s.index (max (i + 1) s.index.length)).count true =
      s.index.count true := count_true_append_replicate_false _ _
  have hget : bvGet (bvResize s.index (max (i + 1) s.index.length)) i =
      bvGet s.index i := bvGet_bvResize _ _ _
  unfold ShredIndex2.set_present
  by_cases hne : bvGet (bvResize s.index (max (i + 1) s.index.length)) i != b
  · simp only [hne, if_true]
    have hset := count_true_set (bvResize s.index (max (i + 1) s.index.length)) i b hi
    have hne' : ¬ bvGet (bvResize s.index (max (i + 1) s.index.length)) i = b := by
      simpa using hne
    cases hb : b with
    | true =>
      have hprev : bvGet (bvResize s.index (max (i + 1) s.index.length)) i = false := by
        subst hb
        rcases Bool.eq_false_or_eq_true
          (bvGet (bvResize s.index (max (i + 1) s.index.length)) i) with ht | hf
        · exact absurd ht hne'
        · exact hf
      rw [hprev] at hset
      subst hb
      simp only [if_true]
      simp at hset
      omega
    | false =>
      have hprev : bvGet (bvResize s.index (max (i + 1) s.index.length)) i = true := by
        subst hb
        rcases Bool.eq_false_or_eq_true
          (bvGet (bvResize s.index (max (i + 1) s.index.length)) i) with ht | hf
        · exact ht
        · exact absurd hf hne'
      have hpos : 0 < (bvResize s.index (max (i + 1) s.index.length)).count true :=
        bvGet_true_count_pos _ i hprev
      rw [hprev] at hset
      subst hb
      simp only [Bool.false_eq_true, if_false]
      simp at hset
      omega
  · simp only [hne, if_false]
    simpa [hcnt] using h

theorem num_present_set_many_present (s : ShredIndex2)
    (ps : List (Nat × Bool)) (h : s.num_present = s.index.count true) :
    (s.set_many_present ps).num_present =
      (s.set_many_present ps).index.count true := by
  induction ps generalizing s with
  | nil => exact h
  | cons p rest ih =>
    exact ih (s.set_present p.1 p.2) (num_present_set_present s p.1 p.2 h)

theorem count_true_eq_countP_range (l : List Bool) :
    l.count true = (List.range l.length).countP (fun i => bvGet l i) := by
  induction l with
  | nil => rfl
  | cons a t ih =>
    rw [List.count_cons, List.length_cons, List.range_succ_eq_map,
      List.countP_cons, List.countP_map]
    have hs : ∀ i, bvGet (a :: t) (i + 1) = bvGet t i := fun i => rfl
    have hstep : (List.range t.length).countP
        ((fun i => bvGet (a :: t) i) ∘ Nat.succ) =
        (List.range t.length).countP (fun i => bvGet t i) := by
      apply List.countP_congr
      intro x _
      simp [Function.comp, hs x]
    rw [hstep, ih]
    have h0 : bvGet (a :: t) 0 = a := rfl
    rw [h0]
    cases a <;> simp

theorem is_present_set_many_true (s : ShredIndex2) (l : List Nat) (j : Nat) :
    (s.set_many_present (l.map (fun i => (i, true)))).is_present j =
      (decide (j ∈ l) || s.is_present j) := by
  induction l generalizing s with
  | nil => simp [ShredIndex2.set_many_present]
  | cons x xs ih =>
    have hstep : s.set_many_present ((x :: xs).map (fun i => (i, true))) =
        (s.set_present x true).set_many_present (xs.map (fun i => (i, true))) := rfl
    rw [hstep, ih]
    rw [is_present_set_present]
    by_cases hj : j = x
    · subst hj; simp
    · simp [hj]

theorem set_present_fresh_num (s : ShredIndex2) (i : Nat)
    (h : s.is_present i = false) :
    (s.set_present i true).num_present = s.num_present + 1 := by
  have hget : bvGet (bvResize s.index (max (i + 1) s.index.length)) i =
      bvGet s.index i := bvGet_bvResize _ _ _
  have hfalse : bvGet s.index i = false := by
    rw [← is_present_eq_bvGet]; exact h
  unfold ShredIndex2.set_present
  simp [hget, hfalse]

theorem num_present_set_many_true_fresh (l : List Nat) (s : ShredIndex2)
    (hnodup : l.Nodup) (hfresh : ∀ x ∈ l, s.is_present x = false) :
    (s.set_many_present (l.map (fun i => (i, true)))).num_present =
      s.num_present + l.length := by
  induction l generalizing s with
  | nil => simp [ShredIndex2.set_many_present]
  | cons x xs ih =>
    have hstep : s.set_many_present ((x :: xs).map (fun i => (i, true))) =
        (s.set_present x true).set_many_present (xs.map (fun i => (i, true))) := rfl
    rw [hstep]
    have hx : s.is_present x = false := hfresh x (List.mem_cons_self x xs)
    have hxs : ∀ y ∈ xs, (s.set_present x true).is_present y = false := by
      intro y hy
      rw [is_present_set_present]
      have hyx : y ≠ x := by
        intro hc; subst hc
        exact (List.nodup_cons.mp hnodup).1 hy
      simp [hyx]
      exact hfresh y (List.mem_cons_of_mem x hy)
    rw [ih (s.set_present x true) (List.nodup_cons.mp hnodup).2 hxs,
      set_present_fresh_num s x hx]
    simp [List.length_cons]
    omega

theorem length_set_many_present (s : ShredIndex2) (ps : List (Nat × Bool)) :
    s.index.length ≤ (s.set_many_present ps).index.length := by
  induction ps generalizing s with
  | nil => exact Nat.le_refl _
  | cons p rest ih =>
    have h1 : s.index.length ≤ (s.set_present p.1 p.2).index.length := by
      rw [length_set_present]; omega
    exact Nat.le_trans h1 (ih (s.set_present p.1 p.2))

/-! ## Claim theorems: blockstore metadata -/

/-- Claim C8: `SlotMeta::is_full` returns `true` exactly when `last_index` is
known (differs from the `u64::MAX` unknown sentinel) and
`consumed == last_index + 1`. -/
theorem slot_meta_is_full_iff (m : SlotMeta) :
    m.is_full = true ↔ m.last_index ≠ u64MAX ∧ m.consumed = m.last_index + 1 := by
  unfold SlotMeta.is_full
  by_cases h : m.last_index = u64MAX
  · simp [h]
  · simp [h]

/-- Claim C9: the two shred-index representations are equivalent.  For a
duplicate-free sorted set, `to_shred_index2` marks exactly the set's members
present and reports the set's size; and for any `ShredIndex2`, the round trip
through `to_shred_index` preserves exactly the present indices. -/
theorem shred_index_representations_equiv :
    (∀ si : ShredIndex, si.index.Nodup →
      ((∀ i, si.to_shred_index2.is_present i = true ↔ i ∈ si.index) ∧
        si.to_shred_index2.num_shreds = si.index.length)) ∧
    (∀ (s2 : ShredIndex2) (i : Nat),
      s2.to_shred_index.to_shred_index2.is_present i = s2.is_present i) := by
  have hempty : ∀ i, ShredIndex2.empty.is_present i = false := by
    intro i
    simp [ShredIndex2.is_present, ShredIndex2.empty, bvGet, List.getD]
  constructor
  · intro si hnodup
    constructor
    · intro i
      unfold ShredIndex.to_shred_index2
      rw [is_present_set_many_true, hempty]
      simp [List.mem_reverse]
    · unfold ShredIndex.to_shred_index2 ShredIndex2.num_shreds
      rw [num_present_set_many_true_fresh si.index.reverse ShredIndex2.empty
        (by simpa using hnodup) (fun x _ => hempty x)]
      simp [ShredIndex2.empty]
  · intro s2 i
    unfold ShredIndex2.to_shred_index ShredIndex.to_shred_index2
    rw [is_present_set_many_true, hempty]
    simp only [Bool.or_false, List.mem_reverse, List.mem_filter, List.mem_range]
    by_cases h : s2.is_present i = true
    · have hlt : i < s2.index.length := by
        by_contra hge
        rw [is_present_eq_bvGet, bvGet_out _ _ (Nat.le_of_not_lt hge)] at h
        exact absurd h (by simp)
      simp [h, hlt]
    · have h' : s2.is_present i = false :=
        Bool.eq_false_iff.mpr (fun hc => h hc)
      simp [h']

/-- Claim C9 witness: the theorem instantiated at the concrete set `{2, 5}`. -/
theorem shred_index_representations_equiv_witness :
    (ShredIndex.to_shred_index2 ⟨[2, 5]⟩).num_shreds = ([2, 5] : List Nat).length :=
  (shred_index_representations_equiv.1 ⟨[2, 5]⟩ (by decide)).2

/-- Claim C10 counterexample: `set_present(0, false)` on the empty default
leaves `is_present 0` at its old value (`false`), yet does not leave the whole
state unchanged — the bit-vector grows from length 0 to length 1. -/
theorem set_present_changes_state_cex :
    ShredIndex2.empty.is_present 0 = false ∧
    ShredIndex2.set_present ShredIndex2.empty 0 false ≠ ShredIndex2.empty ∧
    (ShredIndex2.set_present ShredIndex2.empty 0 false).index.length = 1 := by
  decide

/-- Claim C10 (amended): for every state reachable from the default by
`set_present`/`set_many_present`, `num_shreds` equals the exact number of
distinct present indices; `set_present(i, b)` when `is_present i` already
equals `b` changes neither `num_present` nor any `is_present` value (though
the bit-vector may still grow to cover `i`); and the bit-vector's length never
decreases across any operation. -/
theorem shred_index2_num_and_growth :
    (∀ ops : List (Nat × Bool),
      (ShredIndex2.empty.set_many_present ops).num_shreds =
        (List.range (ShredIndex2.empty.set_many_present ops).index.length).countP
          (fun i => (ShredIndex2.empty.set_many_present ops).is_present i)) ∧
    (∀ (s : ShredIndex2) (i : Nat) (b : Bool), s.is_present i = b →
      ((s.set_present i b).num_present = s.num_present ∧
        ∀ j, (s.set_present i b).is_present j = s.is_present j)) ∧
    (∀ (s : ShredIndex2) (i : Nat) (b : Bool),
      s.index.length ≤ (s.set_present i b).index.length) ∧
    (∀ (s : ShredIndex2) (ps : List (Nat × Bool)),
      s.index.length ≤ (s.set_many_present ps).index.length) := by
  refine ⟨?_, ?_, ?_, ?_⟩
  · intro ops
    have hbase : ShredIndex2.empty.num_present =
        ShredIndex2.empty.index.count true := rfl
    have hinv := num_present_set_many_present ShredIndex2.empty ops hbase
    set t := ShredIndex2.empty.set_many_present ops with ht
    rw [ShredIndex2.num_shreds, hinv, count_true_eq_countP_range]
    apply List.countP_congr
    intro x hx
    have hlt : x < t.index.length := List.mem_range.mp hx
    rw [is_present_eq_bvGet]
  · intro s i b h
    have hprev : bvGet (bvResize s.index (max (i + 1) s.index.length)) i = b := by
      rw [bvGet_bvResize, ← is_present_eq_bvGet]; exact h
    constructor
    · unfold ShredIndex2.set_present
      simp [hprev]
    · intro j
      rw [is_present_set_present]
      by_cases hj : j = i
      · subst hj; simp [h]
      · simp [hj]
  · intro s i b
    rw [length_set_present]; omega
  · exact length_set_many_present

/-- Claim C10 witness: repeating `set_present(2, true)` does not double-count. -/
theorem shred_index2_num_and_growth_witness :
    ((ShredIndex2.empty.set_present 2 true).set_present 2 true).num_present =
      (ShredIndex2.empty.set_present 2 true).num_present :=
  (shred_index2_num_and_growth.2.1 (ShredIndex2.empty.set_present 2 true) 2 true
    (by decide)).1

theorem present_in_bounds_eq_countP (s : ShredIndex2) (a b : Nat) :
    s.present_in_bounds a b =
      (List.range' a (b - a)).countP (fun i => s.is_present i) := by
  have hpb : s.present_in_bounds a b =
      (List.range' (min a s.index.length)
        (min b s.index.length - min a s.index.length)).countP
        (fun i => bvGet s.index i) := rfl
  rw [hpb]
  have hip : ∀ i, s.is_present i =
      (decide (i < s.index.length) && bvGet s.index i) := fun _ => rfl
  by_cases hab : b ≤ a
  · have h1 : b - a = 0 := by omega
    have h2 : min b s.index.length - min a s.index.length = 0 := by omega
    simp [h1, h2]
  · by_cases hla : s.index.length ≤ a
    · have hz : min b s.index.length - min a s.index.length = 0 := by omega
      rw [hz]
      symm
      apply List.countP_eq_zero.mpr
      intro x hx
      have hx' := List.mem_range'_1.mp hx
      have hxl : ¬ x < s.index.length := by omega
      simp [hip x, hxl]
    · by_cases hbl : b ≤ s.index.length
      · have h2 : min a s.index.length = a := by omega
        have h3 : min b s.index.length = b := by omega
        rw [h2, h3]
        apply List.countP_congr
        intro x hx
        have hx' := List.mem_range'_1.mp hx
        have hxl : x < s.index.length := by omega
        simp [hip x, hxl]
      · have h2 : min a s.index.length = a := by omega
        have h3 : min b s.index.length = s.index.length := by omega
        rw [h2, h3]
        have hsplit : List.range' a (s.index.length - a) ++
            List.range' (a + (s.index.length - a)) (b - s.index.length) =
            List.range' a (b - a) := by
          have h := List.range'_append a (s.index.length - a)
            (b - s.index.length) 1
          have hsum : (b - s.index.length) + (s.index.length - a) = b - a := by
            omega
          simpa [hsum] using h
        rw [← hsplit, List.countP_append]
        have hzero : (List.range' (a + (s.index.length - a))
            (b - s.index.length)).countP (fun i => s.is_present i) = 0 := by
          apply List.countP_eq_zero.mpr
          intro x hx
          have hx' := List.mem_range'_1.mp hx
          have hxl : ¬ x < s.index.length := by omega
          simp [hip x, hxl]
        rw [hzero, Nat.add_zero]
        apply List.countP_congr
        intro x hx
        have hx' := List.mem_range'_1.mp hx
        have hxl : x < s.index.length := by omega
        simp [hip x, hxl]

/-- Claim C3: for every `ErasureMeta` and `Index2`, `status` is `DataFull`
exactly when all `num_data` data shards of the set's range are present
(regardless of coding presence); `CanRecover` exactly when present data plus
present coding reaches `num_data` with the data incomplete; and otherwise
`StillNeed (num_data - data - coding)`, the `Nat` subtraction never going
negative. -/
theorem erasure_meta_status_trichotomy (e : ErasureMeta) (idx : Index2) :
    (e.status idx = ErasureMetaStatus.DataFull ↔
      ∀ i, e.set_index ≤ i → i < e.set_index + e.config.num_data →
        idx.data.is_present i = true) ∧
    (e.status idx = ErasureMetaStatus.CanRecover ↔
      ((¬ ∀ i, e.set_index ≤ i → i < e.set_index + e.config.num_data →
          idx.data.is_present i = true) ∧
        e.config.num_data ≤
          idx.data.present_in_bounds e.set_index
            (e.set_index + e.config.num_data) +
          idx.coding.present_in_bounds e.set_index
            (e.set_index + e.config.num_coding))) ∧
    (∀ k, e.status idx = ErasureMetaStatus.StillNeed k ↔
      (idx.data.present_in_bounds e.set_index
          (e.set_index + e.config.num_data) +
        idx.coding.present_in_bounds e.set_index
          (e.set_index + e.config.num_coding) < e.config.num_data ∧
       k = e.config.num_data -
        (idx.data.present_in_bounds e.set_index
            (e.set_index + e.config.num_data) +
         idx.coding.present_in_bounds e.set_index
           (e.set_index + e.config.num_coding)))) := by
  set nd := e.config.num_data with hnd
  set d := idx.data.present_in_bounds e.set_index (e.set_index + nd) with hd
  set c := idx.coding.present_in_bounds e.set_index
    (e.set_index + e.config.num_coding) with hc
  have hlen : (List.range' e.set_index (e.set_index + nd - e.set_index)).length
      = nd := by rw [List.length_range']; omega
  have hdle : d ≤ nd := by
    rw [hd, present_in_bounds_eq_countP]
    calc (List.range' e.set_index (e.set_index + nd - e.set_index)).countP
          (fun i => idx.data.is_present i)
        ≤ (List.range' e.set_index (e.set_index + nd - e.set_index)).length :=
          List.countP_le_length _
      _ = nd := hlen
  have hall : d = nd ↔ (∀ i, e.set_index ≤ i → i < e.set_index + nd →
      idx.data.is_present i = true) := by
    rw [hd, present_in_bounds_eq_countP]
    constructor
    · intro h i h1 h2
      have heq : (List.range' e.set_index (e.set_index + nd - e.set_index)).countP
          (fun i => idx.data.is_present i) =
          (List.range' e.set_index (e.set_index + nd - e.set_index)).length := by
        rw [hlen]; exact h
      exact List.countP_eq_length.mp heq i
        (List.mem_range'_1.mpr ⟨h1, by omega⟩)
    · intro h
      have hcond : ∀ x ∈ List.range' e.set_index (e.set_index + nd - e.set_index),
          (fun i => idx.data.is_present i) x = true := by
        intro x hx
        have hx' := List.mem_range'_1.mp hx
        exact h x hx'.1 (by omega)
      have hln := List.countP_eq_length.mpr hcond
      rw [hln, hlen]
  have hstat : e.status idx =
      (if nd - d = 0 then ErasureMetaStatus.DataFull
       else if nd - (d + c) = 0 then ErasureMetaStatus.CanRecover
       else ErasureMetaStatus.StillNeed (nd - (d + c))) := rfl
  refine ⟨?_, ?_, ?_⟩
  · rw [hstat]
    by_cases h1 : nd - d = 0
    · have hdn : d = nd := by omega
      simp only [h1, if_true]
      exact iff_of_true trivial (hall.mp hdn)
    · have hdn : d ≠ nd := by omega
      by_cases h2 : nd - (d + c) = 0
      · simp only [h1, if_false, h2, if_true]
        apply iff_of_false (by simp)
        intro hcontra
        exact hdn (hall.mpr hcontra)
      · simp only [h1, if_false, h2]
        apply iff_of_false (by simp)
        intro hcontra
        exact hdn (hall.mpr hcontra)
  · rw [hstat]
    by_cases h1 : nd - d = 0
    · have hdn : d = nd := by omega
      simp only [h1, if_true]
      apply iff_of_false (by simp)
      intro hcontra
      exact hcontra.1 (hall.mp hdn)
    · have hdn : d ≠ nd := by omega
      by_cases h2 : nd - (d + c) = 0
      · simp only [h1, if_false, h2, if_true]
        apply iff_of_true trivial
        exact ⟨fun hcontra => hdn (hall.mpr hcontra), by omega⟩
      · simp only [h1, if_false, h2]
        apply iff_of_false (by simp)
        intro hcontra
        omega
  · intro k
    rw [hstat]
    by_cases h1 : nd - d = 0
    · simp only [h1, if_true]
      apply iff_of_false (by simp)
      intro hcontra
      omega
    · by_cases h2 : nd - (d + c) = 0
      · simp only [h1, if_false, h2, if_true]
        apply iff_of_false (by simp)
        intro hcontra
        omega
      · simp only [h1, if_false, h2]
        constructor
        · intro hk
          have : nd - (d + c) = k := by
            injection hk
          exact ⟨by omega, by omega⟩
        · intro hk
          have : k = nd - (d + c) := hk.2
          rw [this]

/-! ## Association-list lemmas -/

theorem lookupKey_cons {α : Type} (k : Nat) (p : Nat × α)
    (rest : List (Nat × α)) :
    lookupKey k (p :: rest) =
      if p.1 = k then some p.2 else lookupKey k rest := rfl

theorem removeKey_cons {α : Type} (k : Nat) (p : Nat × α)
    (rest : List (Nat × α)) :
    removeKey k (p :: rest) =
      if p.1 = k then removeKey k rest else p :: removeKey k rest := by
  by_cases h : p.1 = k
  · simp [removeKey, List.filter_cons, h]
  · simp [removeKey, List.filter_cons, h]

theorem updateKey_cons {α : Type} (k : Nat) (f : α → α) (p : Nat × α)
    (rest : List (Nat × α)) :
    updateKey k f (p :: rest) =
      (if p.1 = k then (p.1, f p.2) else p) :: updateKey k f rest := by
  simp [updateKey]

theorem lookup_removeKey_self {α : Type} (k : Nat) (l : List (Nat × α)) :
    lookupKey k (removeKey k l) = none := by
  induction l with
  | nil => rfl
  | cons p rest ih =>
    rw [removeKey_cons]
    by_cases h : p.1 = k
    · simpa [h] using ih
    · rw [if_neg h, lookupKey_cons, if_neg h]
      exact ih

theorem lookup_removeKey_ne {α : Type} (k m : Nat) (l : List (Nat × α))
    (h : m ≠ k) : lookupKey m (removeKey k l) = lookupKey m l := by
  induction l with
  | nil => rfl
  | cons p rest ih =>
    rw [removeKey_cons, lookupKey_cons]
    by_cases hp : p.1 = k
    · have hpm : ¬ p.1 = m := by rw [hp]; exact fun hc => h hc.symm
      rw [if_pos hp, if_neg hpm]
      exact ih
    · rw [if_neg hp, lookupKey_cons]
      by_cases hm : p.1 = m
      · rw [if_pos hm, if_pos hm]
      · rw [if_neg hm, if_neg hm]
        exact ih

theorem lookup_updateKey_self {α : Type} (k : Nat) (f : α → α)
    (l : List (Nat × α)) :
    lookupKey k (updateKey k f l) = (lookupKey k l).map f := by
  induction l with
  | nil => rfl
  | cons p rest ih =>
    rw [updateKey_cons]
    by_cases h : p.1 = k
    · simp [h, lookupKey_cons]
    · simp only [if_neg h, lookupKey_cons]
      exact ih

theorem lookup_updateKey_ne {α : Type} (k m : Nat) (f : α → α)
    (l : List (Nat × α)) (h : m ≠ k) :
    lookupKey m (updateKey k f l) = lookupKey m l := by
  induction l with
  | nil => rfl
  | cons p rest ih =>
    rw [updateKey_cons]
    by_cases hp : p.1 = k
    · have hpm : ¬ p.1 = m := by rw [hp]; exact fun hc => h hc.symm
      simp only [if_pos hp, lookupKey_cons, if_neg hpm]
      exact ih
    · by_cases hm : p.1 = m
      · simp only [if_neg hp, lookupKey_cons, if_pos hm]
      · simp only [if_neg hp, lookupKey_cons, if_neg hm]
        exact ih

theorem lookup_insertKey_self {α : Type} (k : Nat) (v : α)
    (l : List (Nat × α)) : lookupKey k (insertKey k v l) = some v := by
  simp [insertKey, lookupKey_cons]

theorem lookup_insertKey_ne {α : Type} (k m : Nat) (v : α)
    (l : List (Nat × α)) (h : m ≠ k) :
    lookupKey m (insertKey k v l) = lookupKey m l := by
  have hk : ¬ k = m := fun hc => h hc.symm
  rw [insertKey, lookupKey_cons, if_neg hk]
  exact lookup_removeKey_ne k m l h

/-! ## Claim theorems: outstanding-request tracker -/

theorem register_response_valid_eq {T S : Type} (rr : RequestResponse T S)
    (n : NodeOutstandingRequests T) (nonce : Nat) (response : S) (now : Nat)
    (st : RequestStatus T) (h : lookupKey nonce n.requests = some st)
    (h1 : 0 < st.num_expected_responses) (h2 : now < st.expire_timestamp)
    (h3 : rr.verify_response st.request response = true) :
    NodeOutstandingRequests.register_response rr n nonce response now =
      (true,
        { requests :=
            if st.num_expected_responses - 1 = 0 then
              removeKey nonce (updateKey nonce
                (fun _ => { st with
                  num_expected_responses := st.num_expected_responses - 1 })
                n.requests)
            else
              updateKey nonce
                (fun _ => { st with
                  num_expected_responses := st.num_expected_responses - 1 })
                n.requests,
          nonce := n.nonce }) := by
  have hv : (decide (0 < st.num_expected_responses)
      && decide (now < st.expire_timestamp)
      && rr.verify_response st.request response) = true := by
    simp only [Bool.and_eq_true, decide_eq_true_eq]
    exact ⟨⟨h1, h2⟩, h3⟩
  unfold NodeOutstandingRequests.register_response
  simp only [h, hv, if_pos]
  by_cases hz : st.num_expected_responses - 1 = 0
  · simp [hz]
  · simp [hz]

theorem register_response_invalid_eq {T S : Type} (rr : RequestResponse T S)
    (n : NodeOutstandingRequests T) (nonce : Nat) (response : S) (now : Nat)
    (st : RequestStatus T) (h : lookupKey nonce n.requests = some st)
    (hinv : ¬ (0 < st.num_expected_responses ∧ now < st.expire_timestamp ∧
      rr.verify_response st.request response = true)) :
    NodeOutstandingRequests.register_response rr n nonce response now =
      (false, { requests := removeKey nonce n.requests, nonce := n.nonce }) := by
  have hv : ¬ ((decide (0 < st.num_expected_responses)
      && decide (now < st.expire_timestamp)
      && rr.verify_response st.request response) = true) := by
    intro hc
    apply hinv
    simp only [Bool.and_eq_true, decide_eq_true_eq] at hc
    exact ⟨hc.1.1, hc.1.2, hc.2⟩
  unfold NodeOutstandingRequests.register_response
  simp only [h, if_neg hv]

/-- Claim C4: `register_response` returns `true` iff an entry exists for the
nonce with positive expected count, `now` strictly before expiry, and a
verifying response; a valid response decrements the count by one and removes
the entry exactly at zero; an invalid or late response on an existing nonce
removes the entry even with a positive count; a missing nonce — or, at the
peer level, a missing peer — returns `false` and changes nothing. -/
theorem register_response_spec {T S : Type} (rr : RequestResponse T S)
    (n : NodeOutstandingRequests T) (nonce : Nat) (response : S) (now : Nat) :
    (lookupKey nonce n.requests = none →
      NodeOutstandingRequests.register_response rr n nonce response now =
        (false, n)) ∧
    (∀ st, lookupKey nonce n.requests = some st →
      ((NodeOutstandingRequests.register_response rr n nonce response now).1 =
          true ↔
        (0 < st.num_expected_responses ∧ now < st.expire_timestamp ∧
          rr.verify_response st.request response = true))) ∧
    (∀ st, lookupKey nonce n.requests = some st →
      0 < st.num_expected_responses → now < st.expire_timestamp →
      rr.verify_response st.request response = true →
      ((NodeOutstandingRequests.register_response rr n nonce response now).1 =
          true ∧
        lookupKey nonce
          (NodeOutstandingRequests.register_response rr n nonce response
            now).2.requests =
          (if st.num_expected_responses - 1 = 0 then none
           else some { st with
             num_expected_responses := st.num_expected_responses - 1 }) ∧
        (∀ m, m ≠ nonce →
          lookupKey m (NodeOutstandingRequests.register_response rr n nonce
            response now).2.requests = lookupKey m n.requests))) ∧
    (∀ st, lookupKey nonce n.requests = some st →
      ¬ (0 < st.num_expected_responses ∧ now < st.expire_timestamp ∧
          rr.verify_response st.request response = true) →
      ((NodeOutstandingRequests.register_response rr n nonce response now).1 =
          false ∧
        lookupKey nonce (NodeOutstandingRequests.register_response rr n nonce
          response now).2.requests = none ∧
        (∀ m, m ≠ nonce →
          lookupKey m (NodeOutstandingRequests.register_response rr n nonce
            response now).2.requests = lookupKey m n.requests))) ∧
    (∀ (o : OutstandingRequests T) (sa : SocketAddr),
      lookupKey sa.ip o.requests = none →
      OutstandingRequests.register_response rr o sa nonce response now =
        (false, o)) := by
  refine ⟨?_, ?_, ?_, ?_, ?_⟩
  · intro h
    unfold NodeOutstandingRequests.register_response
    rw [h]
  · intro st h
    by_cases hc : 0 < st.num_expected_responses ∧ now < st.expire_timestamp ∧
        rr.verify_response st.request response = true
    · rw [register_response_valid_eq rr n nonce response now st h hc.1 hc.2.1
        hc.2.2]
      exact iff_of_true rfl hc
    · rw [register_response_invalid_eq rr n nonce response now st h hc]
      exact iff_of_false (by simp) hc
  · intro st h h1 h2 h3
    rw [register_response_valid_eq rr n nonce response now st h h1 h2 h3]
    refine ⟨rfl, ?_, ?_⟩
    · by_cases hz : st.num_expected_responses - 1 = 0
      · simp only [hz, reduceIte]
        exact lookup_removeKey_self nonce _
      · simp only [if_neg hz]
        rw [lookup_updateKey_self, h]
        rfl
    · intro m hm
      by_cases hz : st.num_expected_responses - 1 = 0
      · simp only [hz, reduceIte]
        rw [lookup_removeKey_ne nonce m _ hm, lookup_updateKey_ne nonce m _ _ hm]
      · simp only [if_neg hz]
        exact lookup_updateKey_ne nonce m _ _ hm
  · intro st h hinv
    rw [register_response_invalid_eq rr n nonce response now st h hinv]
    exact ⟨rfl, lookup_removeKey_self nonce _,
      fun m hm => lookup_removeKey_ne nonce m _ hm⟩
  · intro o sa h
    unfold OutstandingRequests.register_response
    rw [h]

/-- Claim C4 witness: a fresh two-response request at nonce 5, answered
validly before expiry, reports `true`; the theorem is applied at a concrete
tracker state. -/
theorem register_response_spec_witness :
    (NodeOutstandingRequests.register_response
      (⟨fun _ => 2, fun t s => t == s⟩ : RequestResponse Nat Nat)
      ⟨[(5, ⟨1000, 2, 7⟩)], 6⟩ 5 7 10).1 = true :=
  ((register_response_spec (⟨fun _ => 2, fun t s => t == s⟩ :
      RequestResponse Nat Nat) ⟨[(5, ⟨1000, 2, 7⟩)], 6⟩ 5 7 10).2.2.1
    ⟨1000, 2, 7⟩ (by decide) (by decide) (by decide) (by decide)).1

/-- Claim C7: `add_request` returns the peer's current nonce and advances the
per-peer counter to `(nonce + 1) mod (2^32 − 1)`; a second call on the same
peer returns the consecutive (wrapped) nonce; counters of distinct peer IPs
are untouched. -/
theorem add_request_nonce_spec {T S : Type} (rr : RequestResponse T S)
    (o : OutstandingRequests T) (sa : SocketAddr) (request : T) (now : Nat) :
    ((OutstandingRequests.add_request rr o sa request now).1 =
      ((lookupKey sa.ip o.requests).getD ⟨[], 0⟩).nonce) ∧
    (lookupKey sa.ip
        (OutstandingRequests.add_request rr o sa request now).2.requests =
      some { requests := insertKey
               ((lookupKey sa.ip o.requests).getD ⟨[], 0⟩).nonce
               ⟨now + DEFAULT_REQUEST_EXPIRATION_MS,
                 rr.num_expected_responses request, request⟩
               ((lookupKey sa.ip o.requests).getD ⟨[], 0⟩).requests,
             nonce := (((lookupKey sa.ip o.requests).getD ⟨[], 0⟩).nonce + 1)
               % U32MAX }) ∧
    (∀ ip, ip ≠ sa.ip →
      lookupKey ip
          (OutstandingRequests.add_request rr o sa request now).2.requests =
        lookupKey ip o.requests) ∧
    (∀ (request2 : T) (now2 : Nat),
      (OutstandingRequests.add_request rr
          (OutstandingRequests.add_request rr o sa request now).2 sa request2
          now2).1 =
        ((OutstandingRequests.add_request rr o sa request now).1 + 1)
          % U32MAX) := by
  refine ⟨rfl, ?_, ?_, ?_⟩
  · exact lookup_insertKey_self sa.ip _ o.requests
  · intro ip hip
    exact lookup_insertKey_ne sa.ip ip _ o.requests hip
  · intro request2 now2
    have h2 : lookupKey sa.ip
        (OutstandingRequests.add_request rr o sa request now).2.requests =
        some { requests := insertKey
                 ((lookupKey sa.ip o.requests).getD ⟨[], 0⟩).nonce
                 ⟨now + DEFAULT_REQUEST_EXPIRATION_MS,
                   rr.num_expected_responses request, request⟩
                 ((lookupKey sa.ip o.requests).getD ⟨[], 0⟩).requests,
               nonce := (((lookupKey sa.ip o.requests).getD ⟨[], 0⟩).nonce + 1)
                 % U32MAX } :=
      lookup_insertKey_self sa.ip _ o.requests
    show ((lookupKey sa.ip
        (OutstandingRequests.add_request rr o sa request now).2.requests).getD
        ⟨[], 0⟩).nonce = _
    rw [h2]
    rfl

/-- Claim C7 witness: adding a request for peer IP 4 leaves peer IP 9's
tracker untouched; the theorem is applied at a concrete two-peer state. -/
theorem add_request_nonce_spec_witness :
    lookupKey 9 ((OutstandingRequests.add_request
        (⟨fun _ => 2, fun t s => t == s⟩ : RequestResponse Nat Nat)
        ⟨[(9, ⟨[], 3⟩)]⟩ ⟨4, 80⟩ 7 100).2.requests) =
      lookupKey 9 ([(9, (⟨[], 3⟩ : NodeOutstandingRequests Nat))]) :=
  (add_request_nonce_spec (⟨fun _ => 2, fun t s => t == s⟩ :
      RequestResponse Nat Nat) ⟨[(9, ⟨[], 3⟩)]⟩ ⟨4, 80⟩ 7 100).2.2.1 9
    (by decide)

/-! ## Claim theorems: shred ingestion pipeline -/

/-- Claim C5 counterexample: a coding shred with index at the per-slot
maximum, from a resolved non-self leader, with matching version and
`slot ≥ root`, is rejected by `should_retransmit_and_persist` even though
none of the claim's reject conditions — which restrict the index check to
data shreds — applies. -/
theorem should_retransmit_coding_index_cex :
    ((⟨10, 40000, 0, 0, false, false, false⟩ : Shred).is_data = false) ∧
    ((fun _ => some 1) ((10 : Nat)) = some 1) ∧
    ((1 : Nat) ≠ 2) ∧
    (verify_shred_slot (fun _ _ _ => true)
      ⟨10, 40000, 0, 0, false, false, false⟩ 0 = true) ∧
    ((⟨10, 40000, 0, 0, false, false, false⟩ : Shred).version = 0) ∧
    (should_retransmit_and_persist (fun _ _ _ => true) (fun _ => some 1)
      ⟨10, 40000, 0, 0, false, false, false⟩ 2 0 0 = false) := by
  decide

/-- Claim C5 (amended): `should_retransmit_and_persist` returns `false`
exactly when the leader is unresolved, the leader equals the local identity,
the slot/parent check fails (data shreds through the external monotonicity
check, coding shreds when `slot < root`), the version tag mismatches, or the
shred's index — data or coding alike — reaches the per-slot maximum; `true`
otherwise. -/
theorem should_retransmit_reject_iff (vss : Nat → Nat → Nat → Bool)
    (slot_leader_at : Nat → Option Nat) (shred : Shred) (my_pubkey : Nat)
    (root : Nat) (shred_version : Nat) :
    should_retransmit_and_persist vss slot_leader_at shred my_pubkey root
        shred_version = false ↔
      (slot_leader_at shred.slot = none ∨
        slot_leader_at shred.slot = some my_pubkey ∨
        verify_shred_slot vss shred root = false ∨
        shred.version ≠ shred_version ∨
        MAX_DATA_SHREDS_PER_SLOT ≤ shred.index) := by
  unfold should_retransmit_and_persist
  cases hl : slot_leader_at shred.slot with
  | none => simp
  | some leader_id =>
    by_cases h1 : leader_id = my_pubkey
    · subst h1
      simp
    · have h1' : ¬ (some leader_id = some my_pubkey) := by
        intro hc; exact h1 (Option.some.inj hc)
      by_cases h2 : verify_shred_slot vss shred root
      · by_cases h3 : shred.version = shred_version
        · by_cases h4 : MAX_DATA_SHREDS_PER_SLOT ≤ shred.index
          · simp [h1, h1', h2, h3, h4]
          · simp [h1, h1', h2, h3, h4]
        · simp [h1, h1', h2, h3]
      · have h2' : verify_shred_slot vss shred root = false := by
          simpa using h2
        simp [h1, h1', h2']

theorem recv_window_fold_aux (f : Shred → Nat → Bool) (root : Nat)
    (packets : List Packet) (acc : List Shred × List Nat) :
    packets.foldl
      (fun acc packet =>
        if packet.discard then acc
        else
          match packet.data with
          | some shred =>
            if f shred root then
              if decide (shred.index ≥ MAX_DATA_SHREDS_PER_SLOT - 1) then
                (acc.1 ++ [shred], acc.2 ++ [shred.slot])
              else
                (acc.1 ++ [shred], acc.2)
            else acc
          | none => acc) acc =
      (acc.1 ++ packets.filterMap (fun p => if p.discard then none else
          p.data.bind (fun sh => if f sh root then some sh else none)),
       acc.2 ++ (packets.filterMap (fun p => if p.discard then none else
          p.data.bind (fun sh => if f sh root then some sh else none))).filterMap
         (fun sh => if MAX_DATA_SHREDS_PER_SLOT - 1 ≤ sh.index
           then some sh.slot else none)) := by
  induction packets generalizing acc with
  | nil => simp
  | cons p rest ih =>
    rw [List.foldl_cons]
    by_cases hd : p.discard
    · simp only [hd, if_true, List.filterMap_cons, ih]
    · cases hp : p.data with
      | none =>
        simp only [hd, if_false, hp, List.filterMap_cons, ih]
        simp [hd, hp]
      | some sh =>
        by_cases hf : f sh root
        · by_cases hb : MAX_DATA_SHREDS_PER_SLOT - 1 ≤ sh.index
          · have hb' : decide (sh.index ≥ MAX_DATA_SHREDS_PER_SLOT - 1) = true := by
              simpa [ge_iff_le] using hb
            have hb2 : MAX_DATA_SHREDS_PER_SLOT ≤ sh.index + 1 := by
              have hM : 1 ≤ MAX_DATA_SHREDS_PER_SLOT := by
                unfold MAX_DATA_SHREDS_PER_SLOT; omega
              omega
            simp only [hd, if_false, hp, hf, if_true, hb', ih]
            simp [hd, hp, hf, hb, hb2, List.filterMap_cons]
          · have hb' : decide (sh.index ≥ MAX_DATA_SHREDS_PER_SLOT - 1) = false := by
              simpa [ge_iff_le] using hb
            have hb2 : ¬ MAX_DATA_SHREDS_PER_SLOT ≤ sh.index + 1 := by
              have hM : 1 ≤ MAX_DATA_SHREDS_PER_SLOT := by
                unfold MAX_DATA_SHREDS_PER_SLOT; omega
              omega
            simp only [hd, if_false, hp, hf, if_true, hb', ih]
            simp [hd, hp, hf, hb, hb2, List.filterMap_cons]
        · have hf' : f sh root = false := by simpa using hf
          simp only [hd, if_false, hp, hf', ih]
          simp [hd, hp, hf', List.filterMap_cons]

/-- Claim C6 counterexample: a data shred with index 40000 (over the per-slot
maximum 32768) reaching `recv_window` with the standard filter is dropped by
the filter, and `set_dead_slot` is never invoked for its slot — the dead-slot
list stays empty, against the claim. -/
theorem recv_window_overmax_not_marked_dead_cex :
    MAX_DATA_SHREDS_PER_SLOT ≤ 40000 ∧
    recv_window_core
      (fun sh r => should_retransmit_and_persist (fun _ _ _ => true)
        (fun _ => some 1) sh 2 r 0) 0
      [⟨false, some ⟨5, 40000, 4, 0, true, false, false⟩⟩] = ([], []) := by
  decide

/-- Claim C6 (amended): with the standard filter, a shred whose index is at or
over the per-slot maximum is filtered out (never forwarded to insertion) and
does not itself trigger `set_dead_slot`; `set_dead_slot` is invoked exactly
for the forwarded shreds with index at or above the boundary
`MAX_DATA_SHREDS_PER_SLOT - 1` — those at exactly the boundary index, since
any higher index is rejected by the filter. -/
theorem recv_window_dead_slot_marking (vss : Nat → Nat → Nat → Bool)
    (slot_leader_at : Nat → Option Nat) (my_pubkey root shred_version : Nat)
    (packets : List Packet) :
    (∀ sh ∈ (recv_window_core
        (fun sh r => should_retransmit_and_persist vss slot_leader_at sh
          my_pubkey r shred_version) root packets).1,
      sh.index < MAX_DATA_SHREDS_PER_SLOT) ∧
    ((recv_window_core
        (fun sh r => should_retransmit_and_persist vss slot_leader_at sh
          my_pubkey r shred_version) root packets).2 =
      (recv_window_core
        (fun sh r => should_retransmit_and_persist vss slot_leader_at sh
          my_pubkey r shred_version) root packets).1.filterMap
        (fun sh => if MAX_DATA_SHREDS_PER_SLOT - 1 ≤ sh.index
          then some sh.slot else none)) := by
  have haux := recv_window_fold_aux
    (fun sh r => should_retransmit_and_persist vss slot_leader_at sh my_pubkey
      r shred_version) root packets ([], [])
  have hcore : recv_window_core
      (fun sh r => should_retransmit_and_persist vss slot_leader_at sh
        my_pubkey r shred_version) root packets =
      (packets.filterMap (fun p => if p.discard then none else
          p.data.bind (fun sh =>
            if should_retransmit_and_persist vss slot_leader_at sh my_pubkey
              root shred_version then some sh else none)),
       (packets.filterMap (fun p => if p.discard then none else
          p.data.bind (fun sh =>
            if should_retransmit_and_persist vss slot_leader_at sh my_pubkey
              root shred_version then some sh else none))).filterMap
         (fun sh => if MAX_DATA_SHREDS_PER_SLOT - 1 ≤ sh.index
           then some sh.slot else none)) := by
    unfold recv_window_core
    simpa using haux
  constructor
  · intro sh hmem
    rw [hcore] at hmem
    simp only [List.mem_filterMap] at hmem
    obtain ⟨p, _, hp⟩ := hmem
    by_cases hd : p.discard
    · simp [hd] at hp
    · rw [if_neg hd] at hp
      cases hdata : p.data with
      | none =>
        rw [hdata] at hp
        exact absurd hp (by simp)
      | some sh' =>
        rw [hdata] at hp
        have hsh' : (if should_retransmit_and_persist vss slot_leader_at sh'
            my_pubkey root shred_version then some sh' else none) =
            some sh := hp
        by_cases hf : should_retransmit_and_persist vss slot_leader_at sh'
            my_pubkey root shred_version
        · rw [if_pos hf] at hsh'
          have hsh : sh' = sh := Option.some.inj hsh'
          subst hsh
          by_contra hge
          have hge' : MAX_DATA_SHREDS_PER_SLOT ≤ sh'.index :=
            Nat.le_of_not_lt hge
          have hfalse := (should_retransmit_reject_iff vss slot_leader_at sh'
            my_pubkey root shred_version).mpr (Or.inr (Or.inr (Or.inr
              (Or.inr hge'))))
          rw [hfalse] at hf
          exact absurd hf (by simp)
        · rw [if_neg hf] at hsh'
          exact absurd hsh' (by simp)
  · rw [hcore]

/-- Claim C3 witness: with config `(num_data, num_coding) = (2, 1)` and both
data shards present, the theorem yields `DataFull` at a concrete index. -/
theorem erasure_meta_status_trichotomy_witness :
    ErasureMeta.status ⟨0, 0, ⟨2, 1⟩⟩
      ⟨0, ShredIndex2.set_many_present ShredIndex2.empty [(0, true), (1, true)],
        ShredIndex2.empty⟩ = ErasureMetaStatus.DataFull :=
  (erasure_meta_status_trichotomy ⟨0, 0, ⟨2, 1⟩⟩
    ⟨0, ShredIndex2.set_many_present ShredIndex2.empty [(0, true), (1, true)],
      ShredIndex2.empty⟩).1.mpr
    (by
      intro i h1 h2
      have h2' : i < 2 := h2
      have hi : i = 0 ∨ i = 1 := by omega
      rcases hi with h | h <;> subst h <;> decide)

/-- Claim C6 witness: the theorem applied to one boundary-index data shred. -/
theorem recv_window_dead_slot_marking_witness :
    (recv_window_core
      (fun sh r => should_retransmit_and_persist (fun _ _ _ => true)
        (fun _ => some 1) sh 2 r 0) 0
      [⟨false, some ⟨10, 32767, 0, 0, true, false, false⟩⟩]).2 =
    (recv_window_core
      (fun sh r => should_retransmit_and_persist (fun _ _ _ => true)
        (fun _ => some 1) sh 2 r 0) 0
      [⟨false, some ⟨10, 32767, 0, 0, true, false, false⟩⟩]).1.filterMap
      (fun sh => if MAX_DATA_SHREDS_PER_SLOT - 1 ≤ sh.index
        then some sh.slot else none) :=
  (recv_window_dead_slot_marking (fun _ _ _ => true) (fun _ => some 1) 2 0 0
    [⟨false, some ⟨10, 32767, 0, 0, true, false, false⟩⟩]).2

/-! ## Claim theorems: fork manager -/

/-- Claim C1 counterexample: a two-bank fork state (root bank slot 0 and its
child slot 1); slot 0 exists, yet after `set_root(0)` the bank map holds only
slot 1 — the root bank itself has been pruned, because `descendants()[0]`
contains only strict descendants. -/
theorem set_root_prunes_root_cex :
    ((0 : Nat) ∈ ([⟨0, [0], true⟩, ⟨1, [0, 1], false⟩] : List Bank).map
      Bank.slot) ∧
    (BankForks.set_root ⟨[⟨0, [0], true⟩, ⟨1, [0, 1], false⟩], 0⟩ 0).map
      (fun f => f.banks.map Bank.slot) = some [1] := by
  decide

/-- Claim C1 (amended): when the root slot exists, `set_root(R)` squashes R's
bank and prunes so that the surviving banks are exactly the strict
descendants of R — the banks listing R among their ancestors besides
themselves; in particular R's own bank is removed from the map rather than
remaining live. -/
theorem set_root_strict_descendants (f : BankForks) (root : Nat)
    (hnodup : (f.banks.map Bank.slot).Nodup)
    (hroot : f.banks.any (fun b => b.slot == root) = true) :
    ∃ f', BankForks.set_root f root = some f' ∧ f'.root = root ∧
      (∀ b, b ∈ f'.banks ↔ (b ∈ f.banks ∧ root ∈ b.strictAncestors)) ∧
      (∀ b ∈ f'.banks, b.slot ≠ root) := by
  refine ⟨BankForks.prune_non_root { f with root := root } root, ?_, rfl, ?_, ?_⟩
  · unfold BankForks.set_root
    rw [if_pos hroot]
  · intro b
    unfold BankForks.prune_non_root BankForks.descendantsAt
    simp only [List.mem_filter]
    constructor
    · rintro ⟨hb, hds⟩
      refine ⟨hb, ?_⟩
      rw [List.elem_iff] at hds
      simp only [List.mem_map, List.mem_filter] at hds
      obtain ⟨b', ⟨hb', hanc⟩, hslot⟩ := hds
      have hbb : b' = b := List.inj_on_of_nodup_map hnodup hb' hb hslot
      subst hbb
      rw [List.elem_iff] at hanc
      exact hanc
    · rintro ⟨hb, hanc⟩
      refine ⟨hb, ?_⟩
      rw [List.elem_iff]
      simp only [List.mem_map, List.mem_filter]
      exact ⟨b, ⟨hb, List.elem_iff.mpr hanc⟩, rfl⟩
  · intro b hb
    unfold BankForks.prune_non_root BankForks.descendantsAt at hb
    simp only [List.mem_filter] at hb
    obtain ⟨hbmem, hds⟩ := hb
    rw [List.elem_iff] at hds
    simp only [List.mem_map, List.mem_filter] at hds
    obtain ⟨b', ⟨hb', hanc⟩, hslot⟩ := hds
    have hbb : b' = b := List.inj_on_of_nodup_map hnodup hb' hbmem hslot
    subst hbb
    rw [List.elem_iff] at hanc
    unfold Bank.strictAncestors at hanc
    rw [List.mem_filter] at hanc
    intro hc
    have : (root != b'.slot) = true := hanc.2
    rw [hc] at this
    simp at this

/-- Claim C1 witness: the theorem applied to a concrete three-bank fork
(0 ← 1 ← 2); after `set_root(1)` the new root field is 1. -/
theorem set_root_strict_descendants_witness :
    (BankForks.set_root
      ⟨[⟨0, [0], true⟩, ⟨1, [0, 1], true⟩, ⟨2, [0, 1, 2], false⟩], 0⟩ 1).map
      BankForks.root = some 1 := by
  obtain ⟨f', hf, hr, _⟩ := set_root_strict_descendants
    ⟨[⟨0, [0], true⟩, ⟨1, [0, 1], true⟩, ⟨2, [0, 1, 2], false⟩], 0⟩ 1
    (by decide) (by decide)
  rw [hf]
  simp [hr]

/-! ## Claim theorems: transmit-shred assembly cache -/

theorem lookupKey_isSome_iff_mem {α : Type} (k : Nat) (l : List (Nat × α)) :
    (lookupKey k l).isSome = true ↔ k ∈ l.map Prod.fst := by
  induction l with
  | nil => simp [lookupKey]
  | cons p rest ih =>
    rw [lookupKey_cons]
    by_cases h : p.1 = k
    · simp [h]
    · have h' : ¬ k = p.1 := fun hc => h hc.symm
      simp [h, h', ih]

theorem lookupKey_eq_none_of_not_mem {α : Type} (k : Nat) (l : List (Nat × α))
    (h : k ∉ l.map Prod.fst) : lookupKey k l = none := by
  cases hl : lookupKey k l with
  | none => rfl
  | some v =>
    exact absurd ((lookupKey_isSome_iff_mem k l).mp (by rw [hl]; rfl)) h

theorem updateKey_map_fst {α : Type} (k : Nat) (f : α → α)
    (l : List (Nat × α)) : (updateKey k f l).map Prod.fst = l.map Prod.fst := by
  induction l with
  | nil => rfl
  | cons p rest ih =>
    rw [updateKey_cons]
    by_cases h : p.1 = k
    · simp [h, ih]
    · simp [h, ih]

theorem removeKey_map_fst {α : Type} (k : Nat) (l : List (Nat × α)) :
    (removeKey k l).map Prod.fst = (l.map Prod.fst).filter
      (fun x => x != k) := by
  induction l with
  | nil => rfl
  | cons p rest ih =>
    rw [removeKey_cons]
    by_cases h : p.1 = k
    · have hb : (p.1 != k) = false := by simp [h]
      simp [h, ih, List.filter_cons, hb]
    · have hb : (p.1 != k) = true := by simp [h]
      simp [h, ih, List.filter_cons, hb]

theorem removeKey_eq_self_of_not_mem {α : Type} (k : Nat)
    (l : List (Nat × α)) (h : k ∉ l.map Prod.fst) : removeKey k l = l := by
  unfold removeKey
  rw [List.filter_eq_self]
  intro p hp
  have : p.1 ∈ l.map Prod.fst := List.mem_map.mpr ⟨p, hp, rfl⟩
  have hne : p.1 ≠ k := fun hc => h (hc ▸ this)
  simpa using hne

theorem appendBatch_spec (c : SlotTransmitShredsCache) (slot : Nat)
    (first : Shred) (rest : List Shred)
    (hsome : (lookupKey slot c.cache).isSome = true)
    (hhom : (first :: rest).all (fun s => s.is_data == first.is_data) = true) :
    ∃ c', c.appendBatch slot (first :: rest) first = some c' ∧
      c'.cache.map Prod.fst = c.cache.map Prod.fst ∧
      c'.insertion_order = c.insertion_order ∧
      c'.capacity = c.capacity := by
  cases hl : lookupKey slot c.cache with
  | none => rw [hl] at hsome; exact absurd hsome (by simp)
  | some e =>
    unfold SlotTransmitShredsCache.appendBatch
    rw [hl]
    rw [List.all_eq_true] at hhom
    cases hfd : first.is_data with
    | true =>
      have hall : ((first :: rest).all fun s => s.is_data) = true := by
        rw [List.all_eq_true]
        intro s hs
        have := hhom s hs
        rw [hfd] at this
        simpa using this
      simp only [hfd, if_true, hall]
      refine ⟨_, rfl, ?_, rfl, rfl⟩
      show (updateKey slot
        (fun e => { e with
          data_shred_batches := e.data_shred_batches ++ [first :: rest] })
        c.cache).map Prod.fst = c.cache.map Prod.fst
      exact updateKey_map_fst slot _ c.cache
    | false =>
      have hall : ((first :: rest).all fun s => !s.is_data) = true := by
        rw [List.all_eq_true]
        intro s hs
        have := hhom s hs
        rw [hfd] at this
        simpa using this
      simp only [hfd, Bool.false_eq_true, if_false, hall, if_true]
      refine ⟨_, rfl, ?_, rfl, rfl⟩
      show (updateKey slot
        (fun e => { e with
          coding_shred_batches := e.coding_shred_batches ++ [first :: rest] })
        c.cache).map Prod.fst = c.cache.map Prod.fst
      exact updateKey_map_fst slot _ c.cache

theorem push_eq_of_fresh (c : SlotTransmitShredsCache) (slot : Nat)
    (stk : List (Nat × Nat)) (first : Shred) (rest : List Shred)
    (hlknone : lookupKey slot c.cache = none) (hfirst : first.index = 0) :
    c.push slot (some stk) (first :: rest) =
      (match (if c.insertion_order.length = c.capacity then
          match c.insertion_order with
          | [] => none
          | old_slot :: r =>
            if (lookupKey old_slot c.cache).isSome then
              some { c with cache := removeKey old_slot c.cache, insertion_order := r }
            else none
        else some c) with
      | none => none
      | some c1 =>
        ({ c1 with insertion_order := c1.insertion_order ++ [slot], cache := insertKey slot ⟨stk, [], []⟩ c1.cache } : SlotTransmitShredsCache).appendBatch slot (first :: rest) first) := by
  have h1 : (lookupKey slot c.cache).isSome = false := by rw [hlknone]; rfl
  have h2 : (first.index != 0) = false := by simp [hfirst]
  unfold SlotTransmitShredsCache.push
  simp only [h1, h2, Bool.false_eq_true, if_false]

theorem push_fresh_step (c : SlotTransmitShredsCache) (slot : Nat)
    (stk : List (Nat × Nat)) (first : Shred) (rest : List Shred)
    (hfirst : first.index = 0)
    (hhom : (first :: rest).all (fun s => s.is_data == first.is_data) = true)
    (hnodup : c.insertion_order.Nodup)
    (hperm : (c.cache.map Prod.fst).Perm c.insertion_order)
    (hle : c.insertion_order.length ≤ c.capacity)
    (hcap : 0 < c.capacity)
    (hfresh : slot ∉ c.insertion_order) :
    ∃ c', c.push slot (some stk) (first :: rest) = some c' ∧
      c'.capacity = c.capacity ∧
      c'.insertion_order = (if c.insertion_order.length = c.capacity
        then c.insertion_order.drop 1 else c.insertion_order) ++ [slot] ∧
      c'.insertion_order.Nodup ∧
      (c'.cache.map Prod.fst).Perm c'.insertion_order ∧
      c'.insertion_order.length ≤ c.capacity := by
  have hnotmemkeys : slot ∉ c.cache.map Prod.fst := by
    intro hc
    exact hfresh (hperm.mem_iff.mp hc)
  have hlknone : lookupKey slot c.cache = none :=
    lookupKey_eq_none_of_not_mem slot c.cache hnotmemkeys
  rw [push_eq_of_fresh c slot stk first rest hlknone hfirst]
  by_cases hfull : c.insertion_order.length = c.capacity
  · cases horder : c.insertion_order with
    | nil =>
      exfalso
      rw [horder] at hfull
      simp at hfull
      omega
    | cons old rest' =>
      have holdmem : old ∈ c.insertion_order := by
        rw [horder]; exact List.mem_cons_self _ _
      have holdsome : (lookupKey old c.cache).isSome = true :=
        (lookupKey_isSome_iff_mem old c.cache).mpr (hperm.mem_iff.mpr holdmem)
      rw [horder] at hfull
      rw [if_pos hfull]
      simp only [holdsome, if_true]
      have hslotnot1 : slot ∉ (removeKey old c.cache).map Prod.fst := by
        rw [removeKey_map_fst]
        intro hc
        exact hnotmemkeys (List.mem_of_mem_filter hc)
      have hinsmap : (insertKey slot
          (⟨stk, [], []⟩ : SlotCachedTransmitShreds)
          (removeKey old c.cache)).map Prod.fst =
          slot :: (removeKey old c.cache).map Prod.fst := by
        unfold insertKey
        rw [List.map_cons]
        rw [removeKey_eq_self_of_not_mem slot _ hslotnot1]
      have h2some : (lookupKey slot (insertKey slot
          (⟨stk, [], []⟩ : SlotCachedTransmitShreds)
          (removeKey old c.cache))).isSome = true := by
        rw [lookup_insertKey_self]; rfl
      obtain ⟨c', hc', hmap, hord, hcapc'⟩ := appendBatch_spec
        { cache := insertKey slot ⟨stk, [], []⟩ (removeKey old c.cache),
          insertion_order := rest' ++ [slot], capacity := c.capacity }
        slot first rest h2some hhom
      refine ⟨c', ?_, ?_, ?_, ?_, ?_, ?_⟩
      · exact hc'
      · rw [hcapc']
      · rw [hord, if_pos hfull]
        rfl
      · rw [hord]
        have hnodup' : (old :: rest').Nodup := horder ▸ hnodup
        have hrestnodup : rest'.Nodup := (List.nodup_cons.mp hnodup').2
        have hslotnotrest : slot ∉ rest' := by
          intro hc
          apply hfresh
          rw [horder]
          exact List.mem_cons_of_mem _ hc
        have hsn : (slot :: rest').Nodup :=
          List.nodup_cons.mpr ⟨hslotnotrest, hrestnodup⟩
        exact (List.perm_append_singleton slot rest').symm.nodup hsn
      · rw [hmap, hord]
        have hpermc : (c.cache.map Prod.fst).Perm (old :: rest') :=
          horder ▸ hperm
        have hfilter : ((c.cache.map Prod.fst).filter
            (fun x => x != old)).Perm rest' := by
          have h1 := hpermc.filter (fun x => x != old)
          have h2 : (old :: rest').filter (fun x => x != old) = rest' := by
            rw [List.filter_cons]
            have : (old != old) = false := by simp
            rw [this]
            simp only [Bool.false_eq_true, if_false]
            rw [List.filter_eq_self]
            intro a ha
            have hnodup' : (old :: rest').Nodup := horder ▸ hnodup
            have : old ∉ rest' := (List.nodup_cons.mp hnodup').1
            have hane : a ≠ old := fun hc => this (hc ▸ ha)
            simpa using hane
          rw [h2] at h1
          exact h1
        show ((insertKey slot
            (⟨stk, [], []⟩ : SlotCachedTransmitShreds)
            (removeKey old c.cache)).map Prod.fst).Perm (rest' ++ [slot])
        rw [hinsmap, removeKey_map_fst]
        exact (hfilter.cons slot).trans
          (List.perm_append_singleton slot rest').symm
      · rw [hord]
        have hlen : (old :: rest').length = c.capacity := horder ▸ hfull
        simp at hlen
        simp [List.length_append]
        omega
  · rw [if_neg hfull]
    have hinsmap : (insertKey slot
        (⟨stk, [], []⟩ : SlotCachedTransmitShreds) c.cache).map Prod.fst =
        slot :: c.cache.map Prod.fst := by
      unfold insertKey
      rw [List.map_cons]
      rw [removeKey_eq_self_of_not_mem slot _ hnotmemkeys]
    have h2some : (lookupKey slot (insertKey slot
        (⟨stk, [], []⟩ : SlotCachedTransmitShreds) c.cache)).isSome = true := by
      rw [lookup_insertKey_self]; rfl
    obtain ⟨c', hc', hmap, hord, hcapc'⟩ := appendBatch_spec
      { cache := insertKey slot ⟨stk, [], []⟩ c.cache,
        insertion_order := c.insertion_order ++ [slot],
        capacity := c.capacity }
      slot first rest h2some hhom
    refine ⟨c', ?_, ?_, ?_, ?_, ?_, ?_⟩
    · exact hc'
    · rw [hcapc']
    · rw [hord, if_neg hfull]
    · rw [hord]
      have hsn : (slot :: c.insertion_order).Nodup :=
        List.nodup_cons.mpr ⟨hfresh, hnodup⟩
      exact (List.perm_append_singleton slot c.insertion_order).symm.nodup hsn
    · rw [hmap, hord]
      show ((insertKey slot (⟨stk, [], []⟩ : SlotCachedTransmitShreds)
          c.cache).map Prod.fst).Perm (c.insertion_order ++ [slot])
      rw [hinsmap]
      exact (hperm.cons slot).trans
        (List.perm_append_singleton slot c.insertion_order).symm
    · rw [hord]
      simp [List.length_append]
      omega

theorem pushAll_fresh (items : List (Nat × List (Nat × Nat) × List Shred))
    (c : SlotTransmitShredsCache) (hcap : 0 < c.capacity)
    (hnodupI : (items.map Prod.fst).Nodup)
    (hfreshI : ∀ s ∈ items.map Prod.fst, s ∉ c.insertion_order)
    (hbatch : ∀ it ∈ items, ∃ first rest, it.2.2 = first :: rest ∧
      first.index = 0 ∧
      (it.2.2.all (fun s => s.is_data == first.is_data)) = true)
    (hnodup : c.insertion_order.Nodup)
    (hperm : (c.cache.map Prod.fst).Perm c.insertion_order)
    (hle : c.insertion_order.length ≤ c.capacity) :
    ∃ c', c.pushAll items = some c' ∧
      c'.capacity = c.capacity ∧
      c'.insertion_order =
        fifoEvolve c.capacity c.insertion_order (items.map Prod.fst) ∧
      c'.insertion_order.Nodup ∧
      (c'.cache.map Prod.fst).Perm c'.insertion_order ∧
      c'.insertion_order.length ≤ c.capacity := by
  induction items generalizing c with
  | nil =>
    exact ⟨c, rfl, rfl, rfl, hnodup, hperm, hle⟩
  | cons it items' ih =>
    obtain ⟨first, rest, hb, hfi, hhom⟩ := hbatch it (List.mem_cons_self _ _)
    have hfresh1 : it.1 ∉ c.insertion_order :=
      hfreshI it.1 (by simp)
    rw [hb] at hhom
    obtain ⟨c1, hpush, hcap1, hord1, hnodup1, hperm1, hle1⟩ :=
      push_fresh_step c it.1 it.2.1 first rest hfi hhom hnodup hperm hle hcap
        hfresh1
    have hstep : c.pushAll (it :: items') =
        (c.push it.1 (some it.2.1) it.2.2).bind
          (fun acc => acc.pushAll items') := by
      unfold SlotTransmitShredsCache.pushAll
      rw [List.foldlM_cons]
      rfl
    have hnodupI' : (items'.map Prod.fst).Nodup :=
      (List.nodup_cons.mp (by simpa using hnodupI)).2
    have hitnotin : it.1 ∉ items'.map Prod.fst :=
      (List.nodup_cons.mp (by simpa using hnodupI)).1
    have hfreshI' : ∀ s ∈ items'.map Prod.fst, s ∉ c1.insertion_order := by
      intro s hs
      rw [hord1]
      have hs1 : s ∉ c.insertion_order :=
        hfreshI s (by simp [hs])
      have hs2 : s ≠ it.1 := fun hc => hitnotin (hc ▸ hs)
      intro hc
      rcases List.mem_append.mp hc with hm | hm
      · by_cases hf : c.insertion_order.length = c.capacity
        · rw [if_pos hf] at hm
          exact hs1 (List.mem_of_mem_drop hm)
        · rw [if_neg hf] at hm
          exact hs1 hm
      · simp at hm
        exact hs2 hm
    have hbatch' : ∀ it' ∈ items', ∃ first' rest', it'.2.2 = first' :: rest' ∧
        first'.index = 0 ∧
        (it'.2.2.all (fun s => s.is_data == first'.is_data)) = true :=
      fun it' h => hbatch it' (List.mem_cons_of_mem _ h)
    have hcap1' : 0 < c1.capacity := by rw [hcap1]; exact hcap
    have hle1' : c1.insertion_order.length ≤ c1.capacity := by
      rw [hcap1]; exact hle1
    obtain ⟨c', hall, hcapf, hordf, hnodupf, hpermf, hlef⟩ :=
      ih c1 hcap1' hnodupI' hfreshI' hbatch' hnodup1 hperm1 hle1'
    refine ⟨c', ?_, ?_, ?_, hnodupf, hpermf, ?_⟩
    · rw [hstep, hb, hpush]
      exact hall
    · rw [hcapf, hcap1]
    · rw [hordf, hord1, hcap1]
      show fifoEvolve c.capacity _ _ = _
      unfold fifoEvolve
      rw [List.map_cons, List.foldl_cons]
    · rw [hcap1] at hlef
      exact hlef

theorem fifoEvolve_full (cap : Nat) (hcap : 0 < cap) (order slots : List Nat)
    (hle : order.length ≤ cap) (hsum : order.length + slots.length = cap + 1) :
    fifoEvolve cap order slots = (order ++ slots).drop 1 := by
  induction slots generalizing order with
  | nil =>
    exfalso
    simp at hsum
    omega
  | cons s ss ih =>
    by_cases hf : order.length = cap
    · have hss : ss = [] := by
        have : ss.length = 0 := by
          simp [List.length_cons] at hsum
          omega
        exact List.eq_nil_of_length_eq_zero this
      subst hss
      unfold fifoEvolve
      rw [List.foldl_cons, if_pos hf, List.foldl_nil]
      have hone : 1 ≤ order.length := by omega
      rw [List.drop_append_of_le_length hone]
    · have hstep : fifoEvolve cap order (s :: ss) =
          fifoEvolve cap (order ++ [s]) ss := by
        unfold fifoEvolve
        rw [List.foldl_cons, if_neg hf]
      rw [hstep]
      have hle' : (order ++ [s]).length ≤ cap := by
        simp [List.length_append]
        omega
      have hsum' : (order ++ [s]).length + ss.length = cap + 1 := by
        simp [List.length_append] at *
        omega
      rw [ih (order ++ [s]) hle' hsum']
      rw [List.append_assoc]
      rfl

/-- Claim C2: pushing `capacity + 1` batches for distinct slots — each batch
non-empty, homogeneous, and starting at shred index 0 — into a cache created
with `new(capacity)` (capacity positive) succeeds and leaves exactly
`capacity` resident entries: the earliest-inserted slot is evicted (FIFO) and
every later slot remains resident. -/
theorem transmit_cache_fifo (cap : Nat) (hcap : 0 < cap)
    (items : List (Nat × List (Nat × Nat) × List Shred))
    (hlen : items.length = cap + 1)
    (hnodupI : (items.map Prod.fst).Nodup)
    (hbatch : ∀ it ∈ items, ∃ first rest, it.2.2 = first :: rest ∧
      first.index = 0 ∧
      (it.2.2.all (fun s => s.is_data == first.is_data)) = true) :
    ∃ c', (SlotTransmitShredsCache.new cap).pushAll items = some c' ∧
      c'.cache.length = cap ∧
      c'.insertion_order = (items.map Prod.fst).drop 1 ∧
      (∀ s, (lookupKey s c'.cache).isSome = true ↔
        s ∈ (items.map Prod.fst).drop 1) ∧
      (∀ s ∈ (items.map Prod.fst).take 1, lookupKey s c'.cache = none) := by
  obtain ⟨c', hall, hcapf, hordf, hnodupf, hpermf, hlef⟩ :=
    pushAll_fresh items (SlotTransmitShredsCache.new cap) hcap hnodupI
      (fun s _ hc => by simp [SlotTransmitShredsCache.new] at hc) hbatch
      (by simp [SlotTransmitShredsCache.new])
      (by simp [SlotTransmitShredsCache.new])
      (by simp [SlotTransmitShredsCache.new])
  have horder : c'.insertion_order = (items.map Prod.fst).drop 1 := by
    rw [hordf]
    show fifoEvolve cap [] (items.map Prod.fst) = _
    have hfull := fifoEvolve_full cap hcap [] (items.map Prod.fst) (by simp)
      (by simp [hlen])
    simpa using hfull
  refine ⟨c', hall, ?_, horder, ?_, ?_⟩
  · have h1 : c'.cache.length = (c'.cache.map Prod.fst).length := by simp
    rw [h1, hpermf.length_eq, horder]
    simp [hlen]
  · intro s
    rw [lookupKey_isSome_iff_mem, ← horder]
    exact hpermf.mem_iff
  · intro s hs
    apply lookupKey_eq_none_of_not_mem
    intro hc
    have hmem : s ∈ c'.insertion_order := hpermf.mem_iff.mp hc
    rw [horder] at hmem
    cases hl : items.map Prod.fst with
    | nil =>
      rw [hl] at hs
      simp at hs
    | cons a t =>
      rw [hl] at hs hmem hnodupI
      simp at hs
      subst hs
      simp at hmem
      exact (List.nodup_cons.mp hnodupI).1 hmem

/-- Claim C2 witness: capacity 2, three distinct index-0 slots 10, 11, 12;
after the pushes the resident insertion order is `[11, 12]` — slot 10, the
earliest, was evicted. -/
theorem transmit_cache_fifo_witness :
    ((SlotTransmitShredsCache.new 2).pushAll
      [(10, [(1, 1)], [⟨10, 0, 0, 0, true, false, false⟩]),
       (11, [(1, 1)], [⟨11, 0, 0, 0, true, false, false⟩]),
       (12, [(1, 1)], [⟨12, 0, 0, 0, true, false, false⟩])]).map
      SlotTransmitShredsCache.insertion_order = some [11, 12] := by
  obtain ⟨c', hall, _, hord, _, _⟩ := transmit_cache_fifo 2 (by decide)
    [(10, [(1, 1)], [⟨10, 0, 0, 0, true, false, false⟩]),
     (11, [(1, 1)], [⟨11, 0, 0, 0, true, false, false⟩]),
     (12, [(1, 1)], [⟨12, 0, 0, 0, true, false, false⟩])]
    (by decide) (by decide)
    (by
      intro it hit
      simp only [List.mem_cons, List.not_mem_nil, or_false] at hit
      rcases hit with h | h | h
      · subst h
        exact ⟨⟨10, 0, 0, 0, true, false, false⟩, [], rfl, rfl, rfl⟩
      · subst h
        exact ⟨⟨11, 0, 0, 0, true, false, false⟩, [], rfl, rfl, rfl⟩
      · subst h
        exact ⟨⟨12, 0, 0, 0, true, false, false⟩, [], rfl, rfl, rfl⟩)
  rw [hall]
  simp [hord]
